import Mathlib

/-!
Verification of the cronmon process supervisor (git.unix.lgbt/diamondburned/cronmon).

This file gives a shallow embedding, in Lean, of the parts of the Go source
relevant to the specification claims:

* `cronmon/events.go` — the journal event sum type and the `NewEvent` decoder.
* `cronmon/journal.go` — `ReadPreviousState`, the reverse-scan state recovery.
* `cronmon/process.go` — `nextBackoff`, `(*Process).stop`, the per-child
  monitoring goroutine of `(*Process).start`, and `(*Process).Start`.
* `cronmon/watcher.go` — `translateFsnotifyEvt`.
* `cronmon/journal/backwardio/backwardio.go` — the backwards line scanner.

Durations are modelled as natural numbers of nanoseconds, PIDs and exit codes
as integers, byte streams as lists of naturals (byte values).
-/

namespace Cronmon

/-! ## Events (`cronmon/events.go`)

One constructor per `Event*` struct of the package. The `quit` variant is the
`EventQuit` struct (tag `"monitor quit"`) declared in the package and matched
by `ReadPreviousState` in `cronmon/journal.go`; note that `NewEvent` in
`events.go` has no case for it. -/

inductive Event : Type
  | warning (component error : String)
  | acquired
  | quit
  | logTruncated (reason : String)
  | processTakeoverError (pid : Int) (file error statusFile : String)
  | processSpawnError (file reason : String)
  | processSpawned (file : String) (pid : Int)
  | processExited (pid : Int) (file error : String) (exitCode : Int)
  | processListModify (op file : String)
  deriving DecidableEq, Repr

/-- The `Type()` method of each event struct (`cronmon/events.go` and the
`EventQuit` declaration). -/
def Event.type : Event → String
  | .warning _ _ => "warning"
  | .acquired => "acquired lock"
  | .quit => "monitor quit"
  | .logTruncated _ => "log truncated"
  | .processTakeoverError _ _ _ _ => "process takeover error"
  | .processSpawnError _ _ => "process spawn error"
  | .processSpawned _ _ => "process spawned"
  | .processExited _ _ _ _ => "process exited"
  | .processListModify _ _ => "process list modified"

/-- `NewEvent` (`cronmon/events.go` lines 26–47): decode dispatch from a wire
tag to a zero-valued event, `none` for an unknown tag. The switch has cases
for exactly eight tags; `"monitor quit"` is not among them. -/
def NewEvent (eventType : String) : Option Event :=
  if eventType = "warning" then some (.warning "" "")
  else if eventType = "acquired lock" then some .acquired
  else if eventType = "log truncated" then some (.logTruncated "")
  else if eventType = "process takeover error" then
    some (.processTakeoverError 0 "" "" "")
  else if eventType = "process spawn error" then some (.processSpawnError "" "")
  else if eventType = "process spawned" then some (.processSpawned "" 0)
  else if eventType = "process exited" then some (.processExited 0 "" "" 0)
  else if eventType = "process list modified" then
    some (.processListModify "" "")
  else none

/-- The decode step of `(*Reader).Read` (`cronmon/journal/reader.go` lines
42–45): an unknown tag aborts the read with an `unknown event` error. -/
def readerDecode (tag : String) : Except String Event :=
  match NewEvent tag with
  | none => .error ("unknown event " ++ tag)
  | some e => .ok e

/-! ## Backoff computation (`cronmon/process.go` lines 248–264)

`nextBackoff(backoffs []time.Duration, ix *int) (start, reset time.Duration)`.
The cursor is a Go `int`, which may be `-1`; we model it as `Int`.
`backoffs[i]` panics when out of range, modelled by `none`. -/

/-- Go slice indexing `l[i]` with an `int` index: `none` models the
out-of-range panic. -/
def goIndex (l : List Nat) (i : Int) : Option Nat :=
  if i < 0 then none else l[i.toNat]?

/-- `nextBackoff` (`cronmon/process.go` lines 248–264). Returns
`(start, reset, updated cursor)`; `none` models an index panic. -/
def nextBackoff (backoffs : List Nat) (ix : Int) : Option (Nat × Nat × Int) :=
  let startIx0 : Int := ix
  let resetIx0 : Int := startIx0
  let res : Int × Int × Int :=
    if startIx0 < (backoffs.length : Int) - 1 then
      let startIx := startIx0 + 1
      let resetIx := resetIx0 + 1
      let resetIx := if resetIx < (backoffs.length : Int) - 2 then resetIx + 1 else resetIx
      (startIx, resetIx, startIx)
    else
      (startIx0, resetIx0, ix)
  match goIndex backoffs res.1, goIndex backoffs res.2.1 with
  | some s, some r => some (s, r, res.2.2)
  | _, _ => none

/-- The reset index claimed by the spec sentence
`reset_window = backoff[min(i+2, len-1)]`, for comparison with the source. -/
def specResetWindow (backoffs : List Nat) (i : Int) : Option Nat :=
  goIndex backoffs (min (i + 2) ((backoffs.length : Int) - 1))

theorem goIndex_some_of_bounds (l : List Nat) (j : Int) (h0 : 0 ≤ j)
    (hlt : j < (l.length : Int)) :
    ∃ v, goIndex l j = some v ∧ v ∈ l ∧ l[j.toNat]? = some v := by
  have hj : j.toNat < l.length := by omega
  refine ⟨l[j.toNat], ?_, List.getElem_mem hj, List.getElem?_eq_getElem hj⟩
  unfold goIndex
  rw [if_neg (by omega), List.getElem?_eq_getElem hj]

theorem goIndex_mem {l : List Nat} {j : Int} {v : Nat}
    (h : goIndex l j = some v) : v ∈ l := by
  unfold goIndex at h
  split at h
  · exact absurd h (by simp)
  · obtain ⟨hlt, hv⟩ := List.getElem?_eq_some.mp h
    exact hv ▸ List.getElem_mem hlt

/-- Characterization of one `nextBackoff` step on a non-empty list and a
cursor in the valid range `[-1, len-1]`: the start index is
`min(i+1, len-1)` (which is also the updated cursor), while the reset index
is `i+2` only when `i+1 < len-2`, and otherwise equals the start index. -/
theorem nextBackoff_char (bs : List Nat) (i : Int) (hne : bs ≠ [])
    (h1 : -1 ≤ i) (h2 : i ≤ (bs.length : Int) - 1) :
    ∃ s r,
      goIndex bs (min (i + 1) ((bs.length : Int) - 1)) = some s ∧
      goIndex bs (if i + 1 < (bs.length : Int) - 2 then i + 2
        else min (i + 1) ((bs.length : Int) - 1)) = some r ∧
      nextBackoff bs i = some (s, r, min (i + 1) ((bs.length : Int) - 1)) := by
  have hlen : 1 ≤ bs.length := List.length_pos.mpr hne
  by_cases hlt : i < (bs.length : Int) - 1
  · have hmin : min (i + 1) ((bs.length : Int) - 1) = i + 1 := by omega
    rw [hmin]
    have h12 : i + 1 + 1 = i + 2 := by ring
    by_cases hr : i + 1 < (bs.length : Int) - 2
    · obtain ⟨s, hs, _, _⟩ := goIndex_some_of_bounds bs (i + 1) (by omega) (by omega)
      obtain ⟨r, hrr, _, _⟩ := goIndex_some_of_bounds bs (i + 2) (by omega) (by omega)
      refine ⟨s, r, hs, by rw [if_pos hr]; exact hrr, ?_⟩
      unfold nextBackoff
      simp only [if_pos hlt, h12, if_pos hr]
      rw [hs, hrr]
    · obtain ⟨s, hs, _, _⟩ := goIndex_some_of_bounds bs (i + 1) (by omega) (by omega)
      refine ⟨s, s, hs, by rw [if_neg hr]; exact hs, ?_⟩
      unfold nextBackoff
      simp only [if_pos hlt, h12, if_neg hr]
      rw [hs]
  · have hi : i = (bs.length : Int) - 1 := by omega
    have hmin : min (i + 1) ((bs.length : Int) - 1) = i := by omega
    have hr : ¬(i + 1 < (bs.length : Int) - 2) := by omega
    rw [hmin, if_neg hr]
    obtain ⟨s, hs, _, _⟩ := goIndex_some_of_bounds bs i (by omega) (by omega)
    refine ⟨s, s, hs, hs, ?_⟩
    unfold nextBackoff
    simp only [if_neg hlt]
    rw [hs]

/-- C1 counterexample: with `retry_backoff = [0, 5, 15, 60]` and cursor `1`,
the code returns `reset = backoffs[2] = 15`, while the claimed formula
`backoff[min(i+2, len-1)]` gives `backoffs[3] = 60`. -/
theorem nextBackoff_reset_cex :
    nextBackoff [0, 5, 15, 60] 1 = some (15, 15, 2) ∧
    specResetWindow [0, 5, 15, 60] 1 = some 60 ∧
    (nextBackoff [0, 5, 15, 60] 1).map (fun p => p.2.1) ≠
      specResetWindow [0, 5, 15, 60] 1 := by decide

/-- C1 (amended): one `nextBackoff` step on a non-empty list with cursor in
`[-1, len-1]` returns `start_delay = backoff[min(i+1, len-1)]` and advances
the cursor to `min(i+1, len-1)`; the reset window is `backoff[i+2]` when
`i+1 < len-2` and otherwise `backoff[min(i+1, len-1)]`. -/
theorem nextBackoff_step (bs : List Nat) (i : Int) (hne : bs ≠ [])
    (h1 : -1 ≤ i) (h2 : i ≤ (bs.length : Int) - 1) :
    ∃ s r,
      goIndex bs (min (i + 1) ((bs.length : Int) - 1)) = some s ∧
      goIndex bs (if i + 1 < (bs.length : Int) - 2 then i + 2
        else min (i + 1) ((bs.length : Int) - 1)) = some r ∧
      nextBackoff bs i = some (s, r, min (i + 1) ((bs.length : Int) - 1)) :=
  nextBackoff_char bs i hne h1 h2

theorem nextBackoff_step_witness :
    ∃ s r,
      goIndex [0, 5, 15, 60] (min ((0 : Int) + 1) (([0, 5, 15, 60].length : Int) - 1)) = some s ∧
      goIndex [0, 5, 15, 60] (if (0 : Int) + 1 < ([0, 5, 15, 60].length : Int) - 2 then (0 : Int) + 2
        else min ((0 : Int) + 1) (([0, 5, 15, 60].length : Int) - 1)) = some r ∧
      nextBackoff [0, 5, 15, 60] 0 =
        some (s, r, min ((0 : Int) + 1) (([0, 5, 15, 60].length : Int) - 1)) :=
  nextBackoff_step [0, 5, 15, 60] 0 (by decide) (by decide) (by decide)

/-- C9: on a non-empty list with cursor in `[-1, len-1]`, `nextBackoff` never
indexes out of bounds: it returns two members of the list and a cursor in
`[0, len-1]`; once the cursor is `len-1` it stays there and both durations are
the last element. On the empty list the indexing `backoffs[-1]` is taken and
the precondition fails (`none`). -/
theorem nextBackoff_safe (bs : List Nat) (i : Int)
    (h1 : -1 ≤ i) (h2 : i ≤ (bs.length : Int) - 1) :
    (bs = [] → nextBackoff bs i = none) ∧
    (bs ≠ [] → ∃ s r i', nextBackoff bs i = some (s, r, i') ∧
      s ∈ bs ∧ r ∈ bs ∧ 0 ≤ i' ∧ i' ≤ (bs.length : Int) - 1 ∧
      (i = (bs.length : Int) - 1 →
        i' = i ∧ bs.getLast? = some s ∧ bs.getLast? = some r)) := by
  constructor
  · rintro rfl
    have hi : i = -1 := by
      simp only [List.length_nil, Nat.cast_zero] at h2
      omega
    subst hi
    decide
  · intro hne
    have hlen : 1 ≤ bs.length := List.length_pos.mpr hne
    obtain ⟨s, r, hs, hr, heq⟩ := nextBackoff_char bs i hne h1 h2
    refine ⟨s, r, _, heq, goIndex_mem hs, goIndex_mem hr, by omega, by omega, ?_⟩
    intro hi
    have hmin : min (i + 1) ((bs.length : Int) - 1) = i := by omega
    have hcond : ¬(i + 1 < (bs.length : Int) - 2) := by omega
    rw [hmin] at hs
    rw [if_neg hcond, hmin] at hr
    have hix : i.toNat = bs.length - 1 := by omega
    have hgl : bs.getLast? = goIndex bs i := by
      unfold goIndex
      rw [if_neg (by omega), hix, List.getLast?_eq_getElem?]
    exact ⟨hmin, by rw [hgl, hs], by rw [hgl, hr]⟩

theorem nextBackoff_safe_witness :
    (([0, 5, 15, 60] : List Nat) = [] → nextBackoff [0, 5, 15, 60] 3 = none) ∧
    (([0, 5, 15, 60] : List Nat) ≠ [] → ∃ s r i',
      nextBackoff [0, 5, 15, 60] 3 = some (s, r, i') ∧
      s ∈ [0, 5, 15, 60] ∧ r ∈ [0, 5, 15, 60] ∧ 0 ≤ i' ∧
      i' ≤ (([0, 5, 15, 60] : List Nat).length : Int) - 1 ∧
      (3 = (([0, 5, 15, 60] : List Nat).length : Int) - 1 →
        i' = 3 ∧ ([0, 5, 15, 60] : List Nat).getLast? = some s ∧
          ([0, 5, 15, 60] : List Nat).getLast? = some r)) :=
  nextBackoff_safe [0, 5, 15, 60] 3 (by decide) (by decide)

/-! ## Previous-state recovery (`cronmon/journal.go` lines 31–69)

`ReadPreviousState` consumes a `JournalReader` whose `Read` yields events
newest-first; we model the reader as the list of `(event, time)` pairs it
would yield, with times as naturals. The Go `map[string]int` is modelled as
an association list with Go's overwriting assignment, the `map[int]struct{}`
set as a list of PIDs. -/

/-- Go map assignment `m[k] = v`: replaces the entry for `k` or appends. -/
def mapSet (m : List (String × Int)) (k : String) (v : Int) : List (String × Int) :=
  match m with
  | [] => [(k, v)]
  | (k', v') :: rest => if k' = k then (k, v) :: rest else (k', v') :: mapSet rest k v

/-- Go map lookup `m[k]`. -/
def mapGet (m : List (String × Int)) (k : String) : Option Int :=
  match m with
  | [] => none
  | (k', v') :: rest => if k' = k then some v' else mapGet rest k

/-- The `PreviousState` struct (`cronmon/monitor.go` lines 26–30). -/
structure PreviousState where
  startedAt : Nat
  processes : List (String × Int)
  deriving DecidableEq, Repr

/-- The scan loop of `ReadPreviousState` (`cronmon/journal.go` lines 38–68),
carrying the `hasQuit` flag, the `deleted` PID set and the accumulated
`processes` map. Exhausting the reader models the `io.EOF` branch, which
returns `io.ErrUnexpectedEOF`. -/
def readPreviousStateGo :
    List (Event × Nat) → Bool → List Int → List (String × Int) →
      Except String PreviousState
  | [], _, _, _ => .error "unexpected EOF"
  | (ev, time) :: rest, hasQuit, deleted, processes =>
    match ev with
    | .acquired => .ok ⟨time, processes⟩
    | .quit => readPreviousStateGo rest true deleted processes
    | .processExited pid _ _ _ =>
      readPreviousStateGo rest hasQuit (pid :: deleted) processes
    | .processSpawned file pid =>
      if !hasQuit then
        if !(deleted.contains pid) && !hasQuit then
          readPreviousStateGo rest hasQuit deleted (mapSet processes file pid)
        else
          readPreviousStateGo rest hasQuit deleted processes
      else
        readPreviousStateGo rest hasQuit deleted processes
    | _ => readPreviousStateGo rest hasQuit deleted processes

/-- `ReadPreviousState` (`cronmon/journal.go` lines 31–69). -/
def ReadPreviousState (events : List (Event × Nat)) : Except String PreviousState :=
  readPreviousStateGo events false [] []

/-- C2 counterexample: two qualifying spawn records for the same file. The
code's map assignment overwrites, so the OLDER record (pid 20, encountered
last in the reverse scan) wins, not the newer one (pid 10), and the claimed
"no entry for `file` exists yet" guard does not exist in the code. -/
theorem readPreviousState_newer_wins_cex :
    (ReadPreviousState
        [(.processSpawned "a" 10, 5), (.processSpawned "a" 20, 6), (.acquired, 7)]).toOption =
      some ⟨7, [("a", 20)]⟩ ∧
    some (⟨7, [("a", 20)]⟩ : PreviousState) ≠ some ⟨7, [("a", 10)]⟩ := by decide

/-- C2 (amended): a `ProcessSpawned(file, pid)` record is recorded whenever
`has_quit` is false and `pid` is not in the deleted set, overwriting any
existing entry for `file`; hence when two spawn records for the same file
both qualify, the older (last-encountered in the reverse scan) pid wins. -/
theorem readPreviousState_spawn_step
    (rest : List (Event × Nat)) (hasQuit : Bool) (deleted : List Int)
    (processes : List (String × Int)) (file : String) (pid : Int) (time : Nat) :
    readPreviousStateGo ((.processSpawned file pid, time) :: rest)
        hasQuit deleted processes =
      readPreviousStateGo rest hasQuit deleted
        (if hasQuit = false ∧ pid ∉ deleted then
          mapSet processes file pid
        else processes) := by
  cases hasQuit
  · simp only [readPreviousStateGo, Bool.not_false, Bool.and_self, if_true]
    by_cases hmem : pid ∈ deleted <;> simp [hmem]
  · simp [readPreviousStateGo]

/-- C7: the S6 recovery scenario (`cronmon/journal_test.go` lines 78–111).
The journal, newest-first, is
`Spawned(2,a), Exited(2,a), Exited(3,b), Spawned(2,a), Spawned(3,b), Acquired`;
recovery returns the `Acquired` record's time and the map `{"a" ↦ 2}`. -/
theorem readPreviousState_s6 :
    (ReadPreviousState
        [(.processSpawned "a" 2, 42), (.processExited 2 "a" "" 0, 42),
         (.processExited 3 "b" "" 0, 42), (.processSpawned "a" 2, 42),
         (.processSpawned "b" 3, 42), (.acquired, 42)]).toOption =
      some ⟨42, [("a", 2)]⟩ := by decide

/-! ## Wire tags (`cronmon/events.go` and `cronmon/journal/reader.go`) -/

/-- The eight wire tags `NewEvent` actually dispatches on. -/
def wireTags8 : List String :=
  ["warning", "acquired lock", "log truncated", "process takeover error",
   "process spawn error", "process spawned", "process exited",
   "process list modified"]

/-- C5 counterexample: `"monitor quit"` is the `Type()` of the package's
`EventQuit` struct, yet `NewEvent` has no case for it and returns `nil`, so
the claim that all nine listed tags decode is false. -/
theorem newEvent_monitor_quit_cex :
    NewEvent "monitor quit" = none ∧ Event.quit.type = "monitor quit" :=
  ⟨rfl, rfl⟩

/-- C5 (amended): for the eight tags other than `"monitor quit"`, `NewEvent`
returns a non-nil event whose `Type()` is the tag; for `"monitor quit"` and
every other string, `NewEvent` returns nil and the journal reader's `Read`
reports an `unknown event` decode error. -/
theorem newEvent_tags :
    (∀ t ∈ wireTags8, ∃ e, NewEvent t = some e ∧ e.type = t) ∧
    (∀ s, s ∉ wireTags8 → NewEvent s = none ∧
      readerDecode s = .error ("unknown event " ++ s)) := by
  constructor
  · intro t ht
    fin_cases ht <;> exact ⟨_, rfl, rfl⟩
  · intro s hs
    simp only [wireTags8, List.mem_cons, List.mem_singleton, not_or] at hs
    obtain ⟨h1, h2, h3, h4, h5, h6, h7, h8⟩ := hs
    refine ⟨?_, ?_⟩ <;>
      simp [NewEvent, readerDecode, h1, h2, h3, h4, h5, h6, h7, h8]

theorem newEvent_tags_witness :
    (∃ e, NewEvent "warning" = some e ∧ e.type = "warning") ∧
    (NewEvent "monitor quit" = none ∧
      readerDecode "monitor quit" = .error ("unknown event " ++ "monitor quit")) :=
  ⟨newEvent_tags.1 "warning" (by simp [wireTags8]),
   newEvent_tags.2 "monitor quit" (by simp [wireTags8])⟩

/-! ## Directory watcher translation (`cronmon/watcher.go` lines 114–144)

`translateFsnotifyEvt(evt fsnotify.Event, dir string)`. The fsnotify `Op`
bit constants are `Create=1, Write=2, Remove=4, Rename=8, Chmod=16`.
Paths are modelled as lists of characters. -/

def fsnotifyCreate : Nat := 1
def fsnotifyWrite : Nat := 2
def fsnotifyRemove : Nat := 4
def fsnotifyRename : Nat := 8

/-- An fsnotify event: the changed path and the operation bitmask. -/
structure FsnotifyEvent where
  name : List Char
  op : Nat

inductive PLOp : Type
  | add
  | remove
  | update
  deriving DecidableEq, Repr

/-- The `EventProcessListModify` payload produced by the watcher. -/
structure PLModify where
  op : PLOp
  file : List Char
  deriving DecidableEq, Repr

/-- Index of the last occurrence of `c`, as used by `filepath.Split`. -/
def lastIndexOfChar (c : Char) : List Char → Option Nat
  | [] => none
  | x :: xs =>
    match lastIndexOfChar c xs with
    | some j => some (j + 1)
    | none => if x = c then some 0 else none

/-- Go's `filepath.Split`: splits immediately after the final separator into
`(dir, file)`; with no separator the dir is empty. -/
def filepathSplit (p : List Char) : List Char × List Char :=
  match lastIndexOfChar '/' p with
  | none => ([], p)
  | some k => (p.take (k + 1), p.drop (k + 1))

/-- `translateFsnotifyEvt` (`cronmon/watcher.go` lines 116–144), verbatim:
it splits `dir` — not `evt.Name` — and compares the resulting directory part
against `dir` itself. -/
def translateFsnotifyEvt (evt : FsnotifyEvent) (dir : List Char) : List PLModify :=
  let sp := filepathSplit dir
  let evDir := sp.1
  let name := sp.2
  if evDir ≠ dir then []
  else if evt.op &&& fsnotifyWrite ≠ 0 then [⟨.update, name⟩]
  else if evt.op &&& fsnotifyCreate ≠ 0 then [⟨.add, name⟩]
  else if evt.op &&& fsnotifyRename ≠ 0 then [⟨.remove, name⟩]
  else if evt.op &&& fsnotifyRemove ≠ 0 then [⟨.remove, name⟩]
  else []

/-- C3: because `translateFsnotifyEvt` splits the watched directory instead
of the event's path, the guard `evDir != dir` compares the parent of `dir`
with `dir` and always fails (for a directory without a trailing separator);
every OS notification is dropped, including a creation directly inside the
watched directory that the claim says must become `{Add, "a"}`. -/
theorem translateFsnotifyEvt_drops_everything :
    translateFsnotifyEvt ⟨"/cfg/scripts/a".toList, fsnotifyCreate⟩
        "/cfg/scripts".toList = [] ∧
    ∀ evt : FsnotifyEvent, translateFsnotifyEvt evt "/cfg/scripts".toList = [] := by
  have hsplit : filepathSplit ("/cfg/scripts".toList) =
      ("/cfg/".toList, "scripts".toList) := by decide
  have hall : ∀ evt : FsnotifyEvent,
      translateFsnotifyEvt evt "/cfg/scripts".toList = [] := by
    intro evt
    unfold translateFsnotifyEvt
    rw [hsplit]
    rw [if_pos (by decide)]
  exact ⟨hall _, hall⟩

/-! ## Graceful stop (`cronmon/process.go` lines 153–184)

`(*Process).stop` on an abstract process: the inputs are whether a child is
live (`proc.proc != nil`), whether the `Signal` call fails, and whether the
`WaitTimeout` timer fires before the `exited` signal arrives. The output is
the ordered list of observable actions plus the returned error. -/

inductive Sig : Type
  | sigterm
  | sigint
  | sigkill
  deriving DecidableEq, Repr

inductive StopAction : Type
  | signal (s : Sig)
  | kill
  | awaitExited
  deriving DecidableEq, Repr

/-- `(*Process).stop` (`cronmon/process.go` lines 153–184): signal
`syscall.SIGTERM`; on signal error fall back to `Kill()`; then select between
the `WaitTimeout` timer (kill again, await `exited`, return the timeout
error) and the `exited` channel (return nil). With no live child it returns
nil immediately. -/
def processStop (live signalFails timesOut : Bool) :
    List StopAction × Option String :=
  if live = false then ([], none)
  else
    let sigActs := [StopAction.signal .sigterm] ++
      (if signalFails then [StopAction.kill] else [])
    if timesOut then
      (sigActs ++ [StopAction.kill, StopAction.awaitExited],
        some "timed out waiting for program to exit")
    else
      (sigActs ++ [StopAction.awaitExited], none)

/-- C6 counterexample: the first action of `stop` on a live child is
`Signal(SIGTERM)`, not the claimed `SIGINT`. -/
theorem processStop_sigterm_cex :
    (processStop true false false).1.head? = some (.signal .sigterm) ∧
    Sig.sigterm ≠ Sig.sigint := by decide

/-- C6 (amended): `stop` with a live child first sends SIGTERM (not SIGINT);
if that signal call fails it attempts SIGKILL; it then awaits the exited
signal or the wait timeout; on timeout it sends SIGKILL unconditionally,
awaits the exited signal, and returns the `timed out waiting for program to
exit` error; with no live child it returns nil without signalling. -/
theorem processStop_escalation :
    processStop true false false = ([.signal .sigterm, .awaitExited], none) ∧
    processStop true true false =
      ([.signal .sigterm, .kill, .awaitExited], none) ∧
    processStop true false true =
      ([.signal .sigterm, .kill, .awaitExited],
        some "timed out waiting for program to exit") ∧
    processStop true true true =
      ([.signal .sigterm, .kill, .kill, .awaitExited],
        some "timed out waiting for program to exit") ∧
    ∀ signalFails timesOut,
      processStop false signalFails timesOut = ([], none) := by
  refine ⟨rfl, rfl, rfl, rfl, ?_⟩
  intro sf tmo
  rfl

/-! ## Per-child monitoring goroutine (`cronmon/process.go` lines 104–144)

The goroutine spawned by `(*Process).start` is straight-line code; we model
its execution as the ordered trace of its observable actions. The deferred
`proc.exited <- struct{}{}` runs last in either path. -/

inductive ProcAction : Type
  | writeSpawnError (file reason : String)
  | writeSpawned (file : String) (pid : Int)
  | waitChild
  | writeExited (file : String) (pid : Int) (code : Int)
  | signalExited
  deriving DecidableEq, Repr

/-- Trace of the monitoring goroutine of `(*Process).start`
(`cronmon/process.go` lines 104–144): `spawnResult` is `startProc`'s result
(child pid, or `none` with `reason` on error) and `code` the wait status. -/
def childRoutineTrace (file : String) (spawnResult : Option Int)
    (reason : String) (code : Int) : List ProcAction :=
  match spawnResult with
  | none => [.writeSpawnError file reason, .signalExited]
  | some pid =>
    [.writeSpawned file pid, .waitChild, .writeExited file pid code,
     .signalExited]

/-- C8: in the goroutine's trace for a successfully spawned child, the
`ProcessSpawned` journal write precedes the matching `ProcessExited` journal
write, which precedes the dead/exited signal. -/
theorem childRoutine_ordering (file : String) (pid : Int) (reason : String)
    (code : Int) (i j k : Nat)
    (hi : (childRoutineTrace file (some pid) reason code)[i]? =
      some (.writeSpawned file pid))
    (hj : (childRoutineTrace file (some pid) reason code)[j]? =
      some (.writeExited file pid code))
    (hk : (childRoutineTrace file (some pid) reason code)[k]? =
      some .signalExited) :
    i < j ∧ j < k := by
  unfold childRoutineTrace at hi hj hk
  have hi0 : i = 0 := by
    rcases i with _ | _ | _ | _ | i <;> simp_all
  have hj2 : j = 2 := by
    rcases j with _ | _ | _ | _ | j <;> simp_all
  have hk3 : k = 3 := by
    rcases k with _ | _ | _ | _ | k <;> simp_all
  omega

theorem childRoutine_ordering_witness : (0 : Nat) < 2 ∧ (2 : Nat) < 3 :=
  childRoutine_ordering "sleep" 1 "" 0 0 2 3 (by decide) (by decide) (by decide)

/-! ## `Start` on a canceled context (`cronmon/process.go` lines 83–88)

`Start` is a two-case `select` between `<-proc.ctx.Done()` and
`proc.startCmd <- restart`. Go's `select` gives no branch priority: any
ready branch may be taken. The `Done` branch is ready once the context is
canceled; the send branch is ready exactly while the `startMonitor` loop is
parked at its own `select` (which includes a `startCmd` receive) — the
monitor stops receiving only after it observes `ctx.Done()` and returns.
So after `cancel()` but before the monitor observes it, the send can still
rendezvous, and the monitor may service the command (its `start` timer
channel is ready immediately) before taking its own `Done` branch.

The state visible to `Start` is the context flag, whether the monitor
goroutine is still at its select, the owned child, and the journal. The
send branch's effect summarises the delivered command being serviced:
`proc.start(restart)` (lines 90–145), whose monitoring goroutine journals
`ProcessSpawned`/`ProcessSpawnError` and, on `restart` with a live child,
first runs `stop(false)` — the old child's `ProcessExited` is journaled
before the `exited` signal that `stop` awaits. -/

structure SupervisorState where
  ctxDone : Bool
  monitorReceiving : Bool
  proc : Option Int
  journal : List Event
  deriving DecidableEq, Repr

/-- The two branches of the `select` in `(*Process).Start`. -/
inductive StartBranch : Type
  | ctxDoneBranch
  | sendBranch
  deriving DecidableEq, Repr

/-- Readiness of each `select` branch: `Done` once the context is canceled,
the send while the monitor's `startCmd` receive is pending. Go may take any
ready branch. -/
def startBranchReady (st : SupervisorState) : StartBranch → Prop
  | .ctxDoneBranch => st.ctxDone = true
  | .sendBranch => st.monitorReceiving = true

/-- The spawn attempt of `proc.start` (`cronmon/process.go` lines 104–144):
journal `ProcessSpawnError` on failure, else own the child and journal
`ProcessSpawned`. -/
def spawnChild (st : SupervisorState) (file : String) (spawnResult : Option Int)
    (reason : String) : SupervisorState :=
  match spawnResult with
  | none =>
    { st with journal := st.journal ++ [.processSpawnError file reason] }
  | some pid =>
    { st with proc := some pid,
              journal := st.journal ++ [.processSpawned file pid] }

/-- `proc.start(restart)` (`cronmon/process.go` lines 90–145) as serviced by
the monitor: no-op when a child is live and `restart` is false; on restart
the live child is stopped first (`stop(false)`), which journals its
`ProcessExited` before returning; then the spawn attempt runs. -/
def deliverStart (st : SupervisorState) (restart : Bool) (file : String)
    (spawnResult : Option Int) (reason : String) (oldExitCode : Int) :
    SupervisorState :=
  match st.proc with
  | some oldPid =>
    if restart = false then st
    else
      spawnChild
        { st with proc := none,
                  journal := st.journal ++
                    [.processExited oldPid file "" oldExitCode] }
        file spawnResult reason
  | none => spawnChild st file spawnResult reason

/-- One outcome of `(*Process).Start` (`cronmon/process.go` lines 83–88):
the taken branch `b` must be ready; `Done` drops the command, the send
delivers it. -/
def StartOp (st : SupervisorState) (b : StartBranch) (restart : Bool)
    (file : String) (spawnResult : Option Int) (reason : String)
    (oldExitCode : Int) : SupervisorState :=
  match b with
  | .ctxDoneBranch => st
  | .sendBranch => deliverStart st restart file spawnResult reason oldExitCode

/-- C10 counterexample: with the context already canceled but the monitor
still parked at its select, the send branch is ready, and taking it delivers
the command: a child is spawned and `ProcessSpawned` is journaled, so `Start`
does not always leave the state unchanged. -/
theorem startOp_canceled_delivery_cex :
    startBranchReady ⟨true, true, none, []⟩ .sendBranch ∧
    StartOp ⟨true, true, none, []⟩ .sendBranch false "a" (some 9) "" 0 =
      ⟨true, true, some 9, [.processSpawned "a" 9]⟩ ∧
    (⟨true, true, some 9, [.processSpawned "a" 9]⟩ : SupervisorState) ≠
      ⟨true, true, none, []⟩ :=
  ⟨rfl, rfl, by decide⟩

/-- C10 (amended): once the supervising context is canceled AND the monitor
goroutine has exited its loop (no `startCmd` receiver remains, as after
`Stop()` has returned), only the `Done` branch of `Start`'s select is ready,
so `Start` returns without delivering the command: the supervisor state is
unchanged, no child is spawned, and no journal event is written by that
call. -/
theorem startOp_quiescent_frame (st : SupervisorState) (b : StartBranch)
    (restart : Bool) (file : String) (spawnResult : Option Int)
    (reason : String) (oldExitCode : Int)
    (hdone : st.ctxDone = true) (hmon : st.monitorReceiving = false)
    (hb : startBranchReady st b) :
    StartOp st b restart file spawnResult reason oldExitCode = st ∧
    (StartOp st b restart file spawnResult reason oldExitCode).journal =
      st.journal ∧
    (StartOp st b restart file spawnResult reason oldExitCode).proc =
      st.proc := by
  cases b with
  | ctxDoneBranch => exact ⟨rfl, rfl, rfl⟩
  | sendBranch =>
    simp only [startBranchReady, hmon] at hb
    exact absurd hb (by simp)

theorem startOp_quiescent_frame_witness :
    StartOp ⟨true, false, none, []⟩ .ctxDoneBranch true "a" (some 9) "" 0 =
      ⟨true, false, none, []⟩ ∧
    (StartOp ⟨true, false, none, []⟩ .ctxDoneBranch true "a" (some 9) "" 0).journal =
      ([] : List Event) ∧
    (StartOp ⟨true, false, none, []⟩ .ctxDoneBranch true "a" (some 9) "" 0).proc =
      (none : Option Int) :=
  startOp_quiescent_frame ⟨true, false, none, []⟩ .ctxDoneBranch true "a"
    (some 9) "" 0 rfl rfl rfl

/-! ## Backwards reader (`cronmon/journal/backwardio/backwardio.go`)

The seekable byte source is a fixed list `s` of byte values; `Read` on it
fills the requested range completely (the in-memory sources used by the
journal always do). The reader's state models the Go slice `r.buf` as the
valid window plus its offset into the backing array of capacity
`maxTok = bufio.MaxScanTokenSize = 65536` (Go slicing `r.buf[:i]` keeps the
offset, so `cap(r.buf) = maxTok - off`), together with the cursor `r.end`
and whether `r.buf` is still `nil`. -/

def maxTok : Nat := 65536

structure BRState where
  window : List Nat
  off : Nat
  endPos : Nat
  init : Bool
  deriving DecidableEq, Repr

/-- The `r.buf == nil` initial state of `NewBackwardsReader`. -/
def brInit : BRState := ⟨[], 0, 0, false⟩

inductive BRErr : Type
  | eof
  | tooLong
  | noFuel
  deriving DecidableEq, Repr

/-- `(*BackwardsReader).fill` (`backwardio.go` lines 73–131): on first use
seek to the end; then read the previous `min(cap remaining, end)` bytes,
keeping the previously buffered bytes at the tail of the buffer. A clamped
seek (`seekTo < 0`) advances the window offset by `min = max - end`,
shrinking the capacity. `io.EOF` once the cursor is at the start. -/
def brFill (s : List Nat) (st : BRState) : Except BRErr BRState :=
  let st := if st.init then st
            else { window := [], off := 0, endPos := s.length, init := true }
  if st.endPos = 0 then .error .eof
  else
    let cap := maxTok - st.off
    let mx := cap - st.window.length
    if mx ≤ st.endPos then
      .ok { window := (s.take st.endPos).drop (st.endPos - mx) ++ st.window,
            off := st.off, endPos := st.endPos - mx, init := true }
    else
      .ok { window := s.take st.endPos ++ st.window,
            off := st.off + (mx - st.endPos), endPos := 0, init := true }

/-- The scan loop of `ReadUntil` (`backwardio.go` lines 33–57) from index `i`
down to 0: a hit is a delimiter byte, or index 0 once the whole source has
been consumed (`isBOF`). -/
def scanIdx (delim : Nat) (endZero : Bool) (w : List Nat) : Nat → Option Nat
  | 0 =>
    if w.length = 0 then none
    else if w[0]? = some delim ∨ endZero = true then some 0 else none
  | j + 1 =>
    if w[j + 1]? = some delim then some (j + 1) else scanIdx delim endZero w j

/-- The whole backwards scan of the buffered window (empty window: the loop
body never runs). -/
def brScan (delim : Nat) (endZero : Bool) (w : List Nat) : Option Nat :=
  if w.length = 0 then none else scanIdx delim endZero w (w.length - 1)

/-- `(*BackwardsReader).ReadUntil` (`backwardio.go` lines 26–71). On a hit
the tail of the window is split off as the token; a leading `'\n'` (the
check is hard-coded to `'\n'`, byte 10, not to `delim`) is trimmed, and at
the beginning of the file a non-empty trimmed token re-slices the buffer to
its first byte so the leading blank line becomes its own token. A full
window without a hit is `bufio.ErrTooLong`; otherwise the buffer is refilled
and the scan repeats. `fuel` bounds the fill-scan loop. -/
def brReadUntil (s : List Nat) (delim : Nat) :
    Nat → BRState → Except BRErr (List Nat × BRState)
  | 0, _ => .error .noFuel
  | fuel + 1, st =>
    if st.init = false then
      match brFill s st with
      | .error e => .error e
      | .ok st' => brReadUntil s delim fuel st'
    else
      match brScan delim (st.endPos == 0) st.window with
      | some i =>
        let w := st.window
        let tok := w.drop i
        let buf1 := w.take i
        if tok.head? = some 10 then
          let tok2 := tok.tail
          let buf2 := if (i = 0 ∧ st.endPos = 0) ∧ tok2 ≠ [] then w.take 1 else buf1
          .ok (tok2, { st with window := buf2 })
        else
          .ok (tok, { st with window := buf1 })
      | none =>
        if st.window.length = maxTok - st.off then .error .tooLong
        else
          match brFill s st with
          | .error e => .error e
          | .ok st' => brReadUntil s delim fuel st'

/-- Repeatedly call `ReadUntil` until an error; the Bool records whether the
run ended in `io.EOF` (a clean end-of-stream). -/
def brReadAll (s : List Nat) (delim : Nat) :
    Nat → BRState → List (List Nat) × Bool
  | 0, _ => ([], false)
  | fuel + 1, st =>
    match brReadUntil s delim (s.length + 2) st with
    | .ok (tok, st') =>
      let r := brReadAll s delim fuel st'
      (tok :: r.1, r.2)
    | .error .eof => ([], true)
    | .error _ => ([], false)

/-- The token sequence the backwards reader yields on the stream `s`. -/
def brTokens (s : List Nat) (delim : Nat) : List (List Nat) × Bool :=
  brReadAll s delim (s.length + 2) brInit

/-- The stream split by the delimiter, per the spec's words: `n` delimiters
yield `n+1` segments, each excluding its trailing delimiter. -/
def specSplit (d : Nat) : List Nat → List (List Nat)
  | [] => [[]]
  | c :: cs =>
    if c = d then [] :: specSplit d cs
    else
      match specSplit d cs with
      | t :: ts => (c :: t) :: ts
      | [] => [[c]]

/-- C4 counterexample: on the one-byte stream `"\n"` with delimiter `'\n'`,
the reader yields the single token `""` and then EOF, but the stream split
by the delimiter is `["", ""]`; the reversal of the yielded tokens is not
the split. -/
theorem brTokens_newline_cex :
    brTokens [10] 10 = ([[]], true) ∧
    ([[]] : List (List Nat)).reverse ≠ specSplit 10 [10] := by decide

/-! Proof of the amended C4 claim. Every reachable reader state buffers a
window `(s.take u).drop e`: the bytes of the not-yet-returned stream prefix
`s.take u` from position `e` (the cursor `r.end`) up to `u`. One refill
extends the window down to `max (u - maxTok) 0` in a single read, so a
refilled window misses a delimiter only when a whole line overflows the
buffer; under the per-line `LineTooLong` bound the reader therefore yields
exactly the lines of the stream, newest first, for streams of any length. -/

/-- The reader state buffering the stream prefix `s.take u` from position
`e`: window `s[e..u)`, cursor `r.end = e`, window offset `off` into the
backing array. -/
def midSt (s : List Nat) (u e off : Nat) : BRState :=
  ⟨(s.take u).drop e, off, e, true⟩

theorem midSt_window_length (s : List Nat) (u e : Nat) (hu : u ≤ s.length) :
    ((s.take u).drop e).length = u - e := by
  rw [List.length_drop, List.length_take]
  omega

theorem midSt_window_getElem (s : List Nat) (u e k : Nat) (hk : e + k < u) :
    ((s.take u).drop e)[k]? = s[e + k]? := by
  rw [List.getElem?_drop, List.getElem?_take_of_lt hk]

theorem getElem?_ne_of_not_mem {l : List Nat} {a : Nat} (h : a ∉ l) :
    ∀ k : Nat, l[k]? ≠ some a := by
  intro k hk
  obtain ⟨hlt, hv⟩ := List.getElem?_eq_some_iff.mp hk
  exact h (hv ▸ List.getElem_mem hlt)

theorem mem_of_getElem?_some {l : List Nat} {a : Nat} {k : Nat}
    (h : l[k]? = some a) : a ∈ l := by
  obtain ⟨hlt, hv⟩ := List.getElem?_eq_some_iff.mp h
  exact hv ▸ List.getElem_mem hlt

theorem take_ne_nil_of_pos (s : List Nat) (u : Nat) (h1u : 1 ≤ u)
    (hu : u ≤ s.length) : s.take u ≠ [] := by
  intro h0
  have := congrArg List.length h0
  rw [List.length_take, List.length_nil] at this
  omega

theorem drop_split (l : List Nat) (a e : Nat) (ha : a ≤ e)
    (he : e ≤ l.length) :
    (l.take e).drop a ++ l.drop e = l.drop a := by
  conv_rhs => rw [← List.take_append_drop e l]
  rw [List.drop_append_eq_append_drop, List.length_take]
  have h1 : a - min e l.length = 0 := by omega
  rw [h1, List.drop_zero]

/-- The first `fill` after `NewBackwardsReader`: seek to the end, then read
the last `min (len s) maxTok` bytes; a clamped seek moves the window
offset. -/
theorem brFill_init (s : List Nat) (hne : s ≠ []) :
    brFill s brInit =
      .ok (midSt s s.length (s.length - maxTok) (maxTok - s.length)) := by
  have hpos : 0 < s.length := List.length_pos.mpr hne
  unfold brFill brInit midSt
  simp only [Bool.false_eq_true, if_false, List.length_nil, Nat.sub_zero,
    List.append_nil]
  rw [if_neg (by omega)]
  by_cases hmx : maxTok ≤ s.length
  · rw [if_pos (by omega)]
    have h2 : maxTok - s.length = 0 := by omega
    rw [h2]
  · rw [if_neg (by omega)]
    have h2 : s.length - maxTok = 0 := by omega
    rw [h2, List.drop_zero]
    simp

/-- A refill on a mid state with a live cursor (`e ≥ 1`, hence offset 0):
one read extends the window down to `u - maxTok` (clamped to the start of
the stream, shrinking the capacity). -/
theorem brFill_mid (s : List Nat) (u e : Nat) (he : 1 ≤ e) (heu : e ≤ u)
    (hu : u ≤ s.length) (hwc : u - e ≤ maxTok) :
    brFill s (midSt s u e 0) = .ok (midSt s u (u - maxTok) (maxTok - u)) := by
  have hlen : ((s.take u).drop e).length = u - e := midSt_window_length s u e hu
  unfold brFill midSt
  simp only [hlen, Nat.sub_zero, if_true]
  rw [if_neg (by omega)]
  by_cases hbig : maxTok ≤ u
  · rw [if_pos (by omega)]
    have harith : e - (maxTok - (u - e)) = u - maxTok := by omega
    have hoff : maxTok - u = 0 := by omega
    rw [harith, hoff]
    have hwin : (s.take e).drop (u - maxTok) ++ (s.take u).drop e =
        (s.take u).drop (u - maxTok) := by
      rw [show s.take e = (s.take u).take e from by
        rw [List.take_take, min_eq_left heu]]
      exact drop_split (s.take u) (u - maxTok) e (by omega)
        (by rw [List.length_take]; omega)
    rw [hwin]
  · rw [if_neg (by omega)]
    have harith : maxTok - (u - e) - e = maxTok - u := by omega
    have h0 : u - maxTok = 0 := by omega
    simp only [Nat.zero_add]
    rw [harith, h0, List.drop_zero]
    have hwin : s.take e ++ (s.take u).drop e = s.take u := by
      conv_rhs => rw [← List.take_append_drop e (s.take u)]
      rw [List.take_take, min_eq_left heu]
    rw [hwin]

theorem scanIdx_true_spec (d : Nat) (w : List Nat) (hw : w ≠ []) :
    ∀ k, k < w.length →
    ∃ i, scanIdx d true w k = some i ∧ i ≤ k ∧
      (∀ j, i < j → j ≤ k → w[j]? ≠ some d) ∧ (w[i]? = some d ∨ i = 0) := by
  have hlen : w.length ≠ 0 := fun h => hw (List.length_eq_zero.mp h)
  intro k
  induction k with
  | zero =>
    intro _
    refine ⟨0, ?_, Nat.le_refl 0, ?_, Or.inr rfl⟩
    · unfold scanIdx
      rw [if_neg hlen, if_pos (Or.inr rfl)]
    · intro j h1 h2
      omega
  | succ k ih =>
    intro hk
    by_cases hd : w[k + 1]? = some d
    · refine ⟨k + 1, ?_, Nat.le_refl _, ?_, Or.inl hd⟩
      · unfold scanIdx
        rw [if_pos hd]
      · intro j h1 h2
        omega
    · obtain ⟨i, hsc, hle, hgap, hhit⟩ := ih (by omega)
      refine ⟨i, ?_, by omega, ?_, hhit⟩
      · unfold scanIdx
        rw [if_neg hd]
        exact hsc
      · intro j h1 h2
        rcases Nat.lt_or_ge j (k + 1) with h | h
        · exact hgap j h1 (by omega)
        · have hj : j = k + 1 := by omega
          subst hj
          exact hd

theorem brScan_true_spec (d : Nat) (w : List Nat) (hw : w ≠ []) :
    ∃ i, brScan d true w = some i ∧ i < w.length ∧
      (∀ j, i < j → w[j]? ≠ some d) ∧ (w[i]? = some d ∨ i = 0) := by
  have hlen : w.length ≠ 0 := fun h => hw (List.length_eq_zero.mp h)
  obtain ⟨i, h1, h2, h3, h4⟩ := scanIdx_true_spec d w hw (w.length - 1) (by omega)
  refine ⟨i, ?_, by omega, ?_, h4⟩
  · unfold brScan
    rw [if_neg hlen]
    exact h1
  · intro j hj
    by_cases hjl : j < w.length
    · exact h3 j hj (by omega)
    · rw [List.getElem?_eq_none (by omega)]
      simp

theorem specSplit_ne_nil (d : Nat) (v : List Nat) : specSplit d v ≠ [] := by
  cases v with
  | nil => simp [specSplit]
  | cons c cs =>
    unfold specSplit
    by_cases h : c = d
    · simp [h]
    · rw [if_neg h]
      cases hs : specSplit d cs <;> simp

theorem specSplit_append (d : Nat) (u v : List Nat) :
    specSplit d (u ++ d :: v) = specSplit d u ++ specSplit d v := by
  induction u with
  | nil => simp [specSplit]
  | cons c u ih =>
    by_cases h : c = d
    · subst h
      simp [specSplit, ih]
    · cases hs : specSplit d u with
      | nil => exact absurd hs (specSplit_ne_nil d u)
      | cons t ts =>
        simp only [List.cons_append, specSplit, if_neg h, List.append_eq, ih, hs]

theorem specSplit_of_not_mem (d : Nat) (v : List Nat) (h : d ∉ v) :
    specSplit d v = [v] := by
  induction v with
  | nil => rfl
  | cons c cs ih =>
    have hc : ¬(c = d) := fun hcd => h (hcd ▸ List.mem_cons_self c cs)
    have hcs : d ∉ cs := fun hm => h (List.mem_cons_of_mem _ hm)
    simp [specSplit, hc, ih hcs]

theorem head?_take_of_pos (w : List Nat) (i : Nat) (h : 1 ≤ i) :
    (w.take i).head? = w.head? := by
  cases w with
  | nil => simp
  | cons a t =>
    cases i with
    | zero => omega
    | succ i => simp

theorem scanIdx_mem_spec (d : Nat) (b : Bool) (w : List Nat) :
    ∀ k, k < w.length → (∃ j, j ≤ k ∧ w[j]? = some d) →
    ∃ i, scanIdx d b w k = some i ∧ i ≤ k ∧
      (∀ j, i < j → j ≤ k → w[j]? ≠ some d) ∧ w[i]? = some d := by
  intro k
  induction k with
  | zero =>
    intro hk hex
    obtain ⟨j, hj0, hjd⟩ := hex
    have hj : j = 0 := by omega
    subst hj
    refine ⟨0, ?_, Nat.le_refl 0, fun j h1 h2 => by omega, hjd⟩
    unfold scanIdx
    rw [if_neg (by omega), if_pos (Or.inl hjd)]
  | succ k ih =>
    intro hk hex
    by_cases hd : w[k + 1]? = some d
    · refine ⟨k + 1, ?_, Nat.le_refl _, fun j h1 h2 => by omega, hd⟩
      unfold scanIdx
      rw [if_pos hd]
    · obtain ⟨j, hjk, hjd⟩ := hex
      have hjk' : j ≤ k := by
        rcases Nat.lt_or_ge j (k + 1) with h | h
        · omega
        · have hjeq : j = k + 1 := by omega
          exact absurd (hjeq ▸ hjd) hd
      obtain ⟨i, hsc, hle, hgap, hhit⟩ := ih (by omega) ⟨j, hjk', hjd⟩
      refine ⟨i, ?_, by omega, ?_, hhit⟩
      · unfold scanIdx
        rw [if_neg hd]
        exact hsc
      · intro j' h1 h2
        rcases Nat.lt_or_ge j' (k + 1) with h | h
        · exact hgap j' h1 (by omega)
        · have hj' : j' = k + 1 := by omega
          subst hj'
          exact hd

theorem brScan_mem_spec (d : Nat) (b : Bool) (w : List Nat) (hmem : d ∈ w) :
    ∃ i, brScan d b w = some i ∧ i < w.length ∧
      (∀ j, i < j → w[j]? ≠ some d) ∧ w[i]? = some d := by
  obtain ⟨k0, hk0⟩ := List.getElem?_of_mem hmem
  have hk0l : k0 < w.length := (List.getElem?_eq_some_iff.mp hk0).1
  have hlen : w.length ≠ 0 := by omega
  obtain ⟨i, h1, h2, h3, h4⟩ :=
    scanIdx_mem_spec d b w (w.length - 1) (by omega) ⟨k0, by omega, hk0⟩
  refine ⟨i, ?_, by omega, ?_, h4⟩
  · unfold brScan
    rw [if_neg hlen]
    exact h1
  · intro j hj
    by_cases hjl : j < w.length
    · exact h3 j hj (by omega)
    · rw [List.getElem?_eq_none (by omega)]
      simp

theorem scanIdx_none_of_not_mem (d : Nat) (w : List Nat)
    (h : ∀ j : Nat, w[j]? ≠ some d) : ∀ k, scanIdx d false w k = none := by
  intro k
  induction k with
  | zero =>
    unfold scanIdx
    by_cases h0 : w.length = 0
    · rw [if_pos h0]
    · rw [if_neg h0, if_neg (by simp [h 0])]
  | succ k ih =>
    unfold scanIdx
    rw [if_neg (h (k + 1))]
    exact ih

theorem brScan_none_of_not_mem (d : Nat) (w : List Nat) (h : d ∉ w) :
    brScan d false w = none := by
  unfold brScan
  by_cases h0 : w.length = 0
  · rw [if_pos h0]
  · rw [if_neg h0]
    exact scanIdx_none_of_not_mem d w (getElem?_ne_of_not_mem h) _

/-- The last delimiter of a list whose head is not the delimiter but which
contains one. -/
theorem exists_last_delim (v : List Nat) (hne : v ≠ [])
    (hhd : v.head? ≠ some 10) (hmem : (10 : Nat) ∈ v) :
    ∃ j, 1 ≤ j ∧ j < v.length ∧ v[j]? = some 10 ∧
      ∀ k, j < k → v[k]? ≠ some 10 := by
  obtain ⟨i, _, hlt, hgap, hhit⟩ := brScan_true_spec 10 v hne
  have hhd0 : v[0]? ≠ some 10 := by rwa [← List.head?_eq_getElem?]
  have hi : v[i]? = some 10 := by
    rcases hhit with h | h
    · exact h
    · subst h
      obtain ⟨j, hj⟩ := List.getElem?_of_mem hmem
      rcases Nat.eq_zero_or_pos j with h0 | h0
      · exact absurd (h0 ▸ hj) hhd0
      · exact absurd hj (hgap j h0)
  have h1i : 1 ≤ i := by
    rcases Nat.eq_zero_or_pos i with h0 | h0
    · exact absurd (h0 ▸ hi) hhd0
    · exact h0
  exact ⟨i, h1i, hlt, hi, hgap⟩

/-- A stream prefix ending right before a delimiter splits off its last
line. -/
theorem take_decomp (s : List Nat) (j u : Nat) (hj : j < u) (hu : u ≤ s.length)
    (hjd : s[j]? = some 10) :
    s.take u = s.take j ++ 10 :: (s.take u).drop (j + 1) := by
  have hpj : (s.take u)[j]? = some 10 := by
    rw [List.getElem?_take_of_lt hj]
    exact hjd
  obtain ⟨hlt, hv⟩ := List.getElem?_eq_some_iff.mp hpj
  conv_lhs => rw [← List.take_append_drop j (s.take u)]
  rw [List.drop_eq_getElem_cons hlt, hv, List.take_take,
    min_eq_left (by omega : j ≤ u)]

/-- The lines of a delimiter-aligned stream prefix are lines of the whole
stream. -/
theorem mem_specSplit_take (s : List Nat) (u : Nat) (hu : u ≤ s.length)
    (halign : u = s.length ∨ s[u]? = some 10) :
    ∀ t ∈ specSplit 10 (s.take u), t ∈ specSplit 10 s := by
  rcases halign with h | h
  · subst h
    rw [List.take_length]
    exact fun t ht => ht
  · obtain ⟨hlt, hv⟩ := List.getElem?_eq_some_iff.mp h
    have hdec : s = s.take u ++ 10 :: s.drop (u + 1) := by
      conv_lhs => rw [← List.take_append_drop u s]
      rw [List.drop_eq_getElem_cons hlt, hv]
    have hsp : specSplit 10 s =
        specSplit 10 (s.take u) ++ specSplit 10 (s.drop (u + 1)) := by
      conv_lhs => rw [hdec]
      exact specSplit_append 10 _ _
    intro t ht
    rw [hsp]
    exact List.mem_append_left _ ht

/-- `ReadUntil` on an exhausted reader (`r.end = 0`, empty window): the scan
finds nothing, the buffer is not full, and the refill reports `io.EOF`. -/
theorem RU_eof (s : List Nat) (off g : Nat) (hoff : off < maxTok) :
    brReadUntil s 10 (g + 1) (⟨[], off, 0, true⟩ : BRState) =
      .error .eof := by
  have hscan : brScan 10 (((⟨[], off, 0, true⟩ : BRState).endPos) == 0)
      ((⟨[], off, 0, true⟩ : BRState).window) = none := rfl
  have hfill : brFill s (⟨[], off, 0, true⟩ : BRState) = .error .eof := rfl
  simp only [brReadUntil]
  norm_num
  simp only [show brScan 10 true ([] : List Nat) = none from rfl]
  rw [if_neg (by omega : ¬((0 : Nat) = maxTok - off))]
  simp only [hfill]

/-- `ReadUntil` at the beginning of the stream with a delimiter-free window:
the beginning-of-file rule returns the whole window and empties the
buffer. -/
theorem RU_bof (s : List Nat) (u off g : Nat) (h1u : 1 ≤ u) (hu : u ≤ s.length)
    (hhd : (s.take u).head? ≠ some 10) (hnm : (10 : Nat) ∉ s.take u) :
    brReadUntil s 10 (g + 1) (midSt s u 0 off) =
      .ok (s.take u, (⟨[], off, 0, true⟩ : BRState)) := by
  have hne : s.take u ≠ [] := take_ne_nil_of_pos s u h1u hu
  obtain ⟨i, hscan, hlt, hgap, hhit⟩ := brScan_true_spec 10 (s.take u) hne
  have hi0 : i = 0 := by
    rcases hhit with h | h
    · exact absurd (mem_of_getElem?_some h) hnm
    · exact h
  subst hi0
  simp only [brReadUntil, midSt, List.drop_zero]
  norm_num
  simp only [hscan, List.drop_zero, List.take_zero]
  have hhd0 : ¬((s.take u)[0]? = some 10) := by
    rwa [← List.head?_eq_getElem?]
  rw [if_neg hhd0]

/-- `ReadUntil` on a window that contains a delimiter: the scan stops at the
last one, splits off the trimmed suffix as the token, and keeps the prefix
before the delimiter. -/
theorem RU_hit (s : List Nat) (u e off g : Nat) (hu : u ≤ s.length)
    (heu : e ≤ u) (hhd : (s.take u).head? ≠ some 10)
    (hmem : (10 : Nat) ∈ (s.take u).drop e) :
    ∃ j, 1 ≤ j ∧ e ≤ j ∧ j < u ∧ s[j]? = some 10 ∧
      ((10 : Nat) ∉ (s.take u).drop (j + 1)) ∧
      (∀ k, j < k → k < u → s[k]? ≠ some 10) ∧
      brReadUntil s 10 (g + 1) (midSt s u e off) =
        .ok ((s.take u).drop (j + 1), midSt s j e off) := by
  have hwlen : ((s.take u).drop e).length = u - e := midSt_window_length s u e hu
  obtain ⟨i, hscan, hilt, hgap, hhit⟩ :=
    brScan_mem_spec 10 (e == 0) ((s.take u).drop e) hmem
  have hiu : e + i < u := by omega
  have hwi : ((s.take u).drop e)[i]? = s[e + i]? := midSt_window_getElem s u e i hiu
  have hjd : s[e + i]? = some 10 := by rw [← hwi]; exact hhit
  have hj1 : 1 ≤ e + i := by
    by_contra h0
    have he0 : e = 0 := by omega
    have hi0 : i = 0 := by omega
    have hp0 : (s.take u)[0]? = some 10 := by
      rw [List.getElem?_take_of_lt (by omega)]
      rw [show (0 : Nat) = e + i from by omega]
      exact hjd
    exact hhd (by rw [List.head?_eq_getElem?]; exact hp0)
  have hgap' : ∀ k, e + i < k → k < u → s[k]? ≠ some 10 := by
    intro k hk1 hk2
    have hwk : ((s.take u).drop e)[k - e]? = s[k]? := by
      have := midSt_window_getElem s u e (k - e) (by omega)
      rwa [show e + (k - e) = k from by omega] at this
    rw [← hwk]
    exact hgap (k - e) (by omega)
  have hnm : (10 : Nat) ∉ (s.take u).drop (e + i + 1) := by
    intro hm
    obtain ⟨m, hm'⟩ := List.getElem?_of_mem hm
    rw [List.getElem?_drop] at hm'
    by_cases hlt2 : e + i + 1 + m < u
    · rw [List.getElem?_take_of_lt hlt2] at hm'
      exact hgap' (e + i + 1 + m) (by omega) hlt2 hm'
    · rw [List.getElem?_eq_none (by rw [List.length_take]; omega)] at hm'
      exact Option.noConfusion hm'
  refine ⟨e + i, hj1, by omega, by omega, hjd, hnm, hgap', ?_⟩
  have htok : (s.take u)[e + i]? = some 10 := by
    rw [List.getElem?_take_of_lt hiu]
    exact hjd
  simp only [brReadUntil, midSt]
  norm_num
  simp only [hscan]
  rw [if_pos htok]
  have hcond : ¬((i = 0 ∧ e = 0) ∧ e + i + 1 < u ∧ e + i + 1 < s.length) := by
    rintro ⟨⟨hi0, he0⟩, _⟩
    omega
  rw [if_neg hcond]
  rw [List.take_drop, List.take_take, min_eq_left (by omega : e + i ≤ u)]

/-- When the window has no delimiter and the cursor is still live, one
refill happens within the same `ReadUntil` call; the window was not full
(else `ErrTooLong`). -/
theorem RU_fill (s : List Nat) (u e g : Nat) (he : 1 ≤ e) (heu : e ≤ u)
    (hu : u ≤ s.length) (hnw : (10 : Nat) ∉ (s.take u).drop e)
    (hwlt : u - e < maxTok) :
    brReadUntil s 10 (g + 1) (midSt s u e 0) =
      brReadUntil s 10 g (midSt s u (u - maxTok) (maxTok - u)) := by
  have hwlen : ((s.take u).drop e).length = u - e := midSt_window_length s u e hu
  have hb : (e == 0) = false := by
    cases e with
    | zero => omega
    | succ n => rfl
  have hscan : brScan 10 (e == 0) ((s.take u).drop e) = none := by
    rw [hb]
    exact brScan_none_of_not_mem 10 _ hnw
  simp only [brReadUntil, midSt]
  norm_num
  simp only [hscan]
  rw [if_neg (by omega : ¬(u ⊓ s.length - e = maxTok))]
  rw [show brFill s (⟨(s.take u).drop e, 0, e, true⟩ : BRState) =
    .ok (midSt s u (u - maxTok) (maxTok - u)) from
    brFill_mid s u e he heu hu (by omega)]
  rw [show midSt s u (u - maxTok) (maxTok - u) =
    (⟨(s.take u).drop (u - maxTok), maxTok - u, u - maxTok, true⟩ : BRState) from rfl]

/-- In an invariant state the value of one `ReadUntil` call does not depend
on the remaining loop fuel: at most one refill happens within a call, so two
fuel units suffice. -/
theorem RU_indep (s : List Nat) (u e off : Nat)
    (h1u : 1 ≤ u) (hu : u ≤ s.length) (heu : e ≤ u)
    (hoe : 0 < e → off = 0)
    (hful : 0 < e → ((10 : Nat) ∈ (s.take u).drop e ∨ u - e < maxTok))
    (hhd : (s.take u).head? ≠ some 10)
    (hline : ∀ t ∈ specSplit 10 (s.take u), t.length < maxTok)
    (g g' : Nat) (hg : 1 ≤ g) (hg' : 1 ≤ g') :
    brReadUntil s 10 (g + 1) (midSt s u e off) =
      brReadUntil s 10 (g' + 1) (midSt s u e off) := by
  have hpne : s.take u ≠ [] := take_ne_nil_of_pos s u h1u hu
  by_cases hw10 : (10 : Nat) ∈ (s.take u).drop e
  · obtain ⟨j₁, _, _, hju₁, hd₁, _, hgap₁, heq₁⟩ := RU_hit s u e off g hu heu hhd hw10
    obtain ⟨j₂, _, _, hju₂, hd₂, _, hgap₂, heq₂⟩ := RU_hit s u e off g' hu heu hhd hw10
    have hjj : j₁ = j₂ := by
      by_contra hne'
      rcases Nat.lt_or_ge j₁ j₂ with h | h
      · exact hgap₁ j₂ h hju₂ hd₂
      · exact hgap₂ j₁ (by omega) hju₁ hd₁
    rw [heq₁, heq₂, hjj]
  · by_cases he0 : e = 0
    · subst he0
      have hnm : (10 : Nat) ∉ s.take u := by rwa [List.drop_zero] at hw10
      rw [RU_bof s u off g h1u hu hhd hnm, RU_bof s u off g' h1u hu hhd hnm]
    · have hepos : 0 < e := by omega
      have hoff0 : off = 0 := hoe hepos
      subst hoff0
      have hwlt : u - e < maxTok := by
        rcases hful hepos with h | h
        · exact absurd h hw10
        · exact h
      obtain ⟨g₀, rfl⟩ : ∃ g₀, g = g₀ + 1 := ⟨g - 1, by omega⟩
      obtain ⟨g₀', rfl⟩ : ∃ g₀', g' = g₀' + 1 := ⟨g' - 1, by omega⟩
      rw [RU_fill s u e (g₀ + 1) (by omega) heu hu hw10 hwlt,
        RU_fill s u e (g₀' + 1) (by omega) heu hu hw10 hwlt]
      by_cases hp10 : (10 : Nat) ∈ s.take u
      · obtain ⟨j₀, hj₀1, hj₀l, hj₀d, hj₀gap⟩ :=
          exists_last_delim (s.take u) hpne hhd hp10
        have hj₀u : j₀ < u := by
          rw [List.length_take] at hj₀l
          omega
        have hs₀ : s[j₀]? = some 10 := by
          rw [← List.getElem?_take_of_lt hj₀u]
          exact hj₀d
        have hnm₀ : (10 : Nat) ∉ (s.take u).drop (j₀ + 1) := by
          intro hm
          obtain ⟨m, hm'⟩ := List.getElem?_of_mem hm
          rw [List.getElem?_drop] at hm'
          exact hj₀gap _ (by omega) hm'
        have hsp : specSplit 10 (s.take u) =
            specSplit 10 (s.take j₀) ++ [(s.take u).drop (j₀ + 1)] := by
          conv_lhs => rw [take_decomp s j₀ u hj₀u hu hs₀]
          rw [specSplit_append, specSplit_of_not_mem 10 _ hnm₀]
        have htlen : u - (j₀ + 1) < maxTok := by
          have := hline _ (by
            rw [hsp]
            exact List.mem_append_right _ (List.mem_singleton_self _))
          rwa [List.length_drop, List.length_take, min_eq_left hu] at this
        have hmem₂ : (10 : Nat) ∈ (s.take u).drop (u - maxTok) := by
          have hq : ((s.take u).drop (u - maxTok))[j₀ - (u - maxTok)]? = some 10 := by
            rw [List.getElem?_drop,
              show u - maxTok + (j₀ - (u - maxTok)) = j₀ from by omega,
              List.getElem?_take_of_lt hj₀u]
            exact hs₀
          exact mem_of_getElem?_some hq
        obtain ⟨k₁, _, _, hku₁, hkd₁, _, hkgap₁, heq₁⟩ :=
          RU_hit s u (u - maxTok) (maxTok - u) g₀ hu (by omega) hhd hmem₂
        obtain ⟨k₂, _, _, hku₂, hkd₂, _, hkgap₂, heq₂⟩ :=
          RU_hit s u (u - maxTok) (maxTok - u) g₀' hu (by omega) hhd hmem₂
        have hkk : k₁ = k₂ := by
          by_contra hne'
          rcases Nat.lt_or_ge k₁ k₂ with h | h
          · exact hkgap₁ k₂ h hku₂ hkd₂
          · exact hkgap₂ k₁ (by omega) hku₁ hkd₁
        rw [heq₁, heq₂, hkk]
      · have hulen : u < maxTok := by
          have hms : s.take u ∈ specSplit 10 (s.take u) := by
            rw [specSplit_of_not_mem 10 _ hp10]
            exact List.mem_singleton_self _
          have := hline _ hms
          rwa [List.length_take, min_eq_left hu] at this
        have he₂ : u - maxTok = 0 := by omega
        rw [he₂]
        rw [RU_bof s u (maxTok - u) g₀ h1u hu hhd hp10,
          RU_bof s u (maxTok - u) g₀' h1u hu hhd hp10]

/-- The tokens collected from an invariant mid state are the reversed lines
of the buffered stream prefix, ending in a clean EOF. Strong induction on
the prefix length `u`. -/
theorem brReadAll_mid (s : List Nat) (hne : s ≠ []) (hhd : s.head? ≠ some 10)
    (hline : ∀ t ∈ specSplit 10 s, t.length < maxTok) :
    ∀ n u e off, u = n → 1 ≤ u → u ≤ s.length → e ≤ u →
      (0 < e → off = 0) → off < maxTok → u - e ≤ maxTok - off →
      (0 < e → ((10 : Nat) ∈ (s.take u).drop e ∨ u - e < maxTok)) →
      (u = s.length ∨ s[u]? = some 10) →
      ∀ f, (s.take u).count 10 + 2 ≤ f →
      brReadAll s 10 f (midSt s u e off) =
        ((specSplit 10 (s.take u)).reverse, true) := by
  intro n
  induction n using Nat.strong_induction_on with
  | _ n ih =>
    intro u e off hun h1u hu heu hoe hoff hcap hful halign f hf
    obtain ⟨f', rfl⟩ : ∃ f', f = f' + 1 := ⟨f - 1, by omega⟩
    have hpne : s.take u ≠ [] := take_ne_nil_of_pos s u h1u hu
    have hphd : (s.take u).head? ≠ some 10 := by
      rw [head?_take_of_pos s u h1u]
      exact hhd
    have hpline : ∀ t ∈ specSplit 10 (s.take u), t.length < maxTok :=
      fun t ht => hline t (mem_specSplit_take s u hu halign t ht)
    by_cases hw10 : (10 : Nat) ∈ (s.take u).drop e
    · obtain ⟨j, hj1, hje, hju, hjd, hjnm, hjgap, heq⟩ :=
        RU_hit s u e off (s.length + 1) hu heu hphd hw10
      have hdec : s.take u = s.take j ++ 10 :: (s.take u).drop (j + 1) :=
        take_decomp s j u hju hu hjd
      have hcnt : (s.take j).count 10 + 1 = (s.take u).count 10 := by
        conv_rhs => rw [hdec]
        rw [List.count_append, List.count_cons_self,
          List.count_eq_zero.mpr hjnm]
      have ihj := ih j (by omega) j e off rfl hj1 (by omega) hje hoe hoff
        (by omega) (fun hep => Or.inr (by omega)) (Or.inr hjd) f' (by omega)
      simp only [brReadAll,
        show brReadUntil s 10 (s.length + 2) (midSt s u e off) =
          Except.ok ((s.take u).drop (j + 1), midSt s j e off) from heq]
      rw [ihj]
      conv_rhs => rw [hdec]
      rw [specSplit_append, specSplit_of_not_mem 10 _ hjnm, List.reverse_append]
      simp
    · by_cases he0 : e = 0
      · subst he0
        have hnm : (10 : Nat) ∉ s.take u := by rwa [List.drop_zero] at hw10
        obtain ⟨f'', rfl⟩ : ∃ f'', f' = f'' + 1 := ⟨f' - 1, by omega⟩
        simp only [brReadAll,
          show brReadUntil s 10 (s.length + 2) (midSt s u 0 off) =
            Except.ok (s.take u, (⟨[], off, 0, true⟩ : BRState)) from
            RU_bof s u off (s.length + 1) h1u hu hphd hnm,
          show brReadUntil s 10 (s.length + 2) ((⟨[], off, 0, true⟩ : BRState)) =
            Except.error BRErr.eof from RU_eof s off (s.length + 1) hoff]
        rw [specSplit_of_not_mem 10 _ hnm]
        simp
      · have hepos : 0 < e := by omega
        have hoff0 : off = 0 := hoe hepos
        subst hoff0
        have hwlt : u - e < maxTok := by
          rcases hful hepos with h | h
          · exact absurd h hw10
          · exact h
        have hfill := RU_fill s u e (s.length + 1) (by omega) heu hu hw10 hwlt
        by_cases hp10 : (10 : Nat) ∈ s.take u
        · obtain ⟨j₀, hj₀1, hj₀l, hj₀d, hj₀gap⟩ :=
            exists_last_delim (s.take u) hpne hphd hp10
          have hj₀u : j₀ < u := by
            rw [List.length_take] at hj₀l
            omega
          have hs₀ : s[j₀]? = some 10 := by
            rw [← List.getElem?_take_of_lt hj₀u]
            exact hj₀d
          have hnm₀ : (10 : Nat) ∉ (s.take u).drop (j₀ + 1) := by
            intro hm
            obtain ⟨m, hm'⟩ := List.getElem?_of_mem hm
            rw [List.getElem?_drop] at hm'
            exact hj₀gap _ (by omega) hm'
          have hsp : specSplit 10 (s.take u) =
              specSplit 10 (s.take j₀) ++ [(s.take u).drop (j₀ + 1)] := by
            conv_lhs => rw [take_decomp s j₀ u hj₀u hu hs₀]
            rw [specSplit_append, specSplit_of_not_mem 10 _ hnm₀]
          have htlen : u - (j₀ + 1) < maxTok := by
            have := hpline _ (by
              rw [hsp]
              exact List.mem_append_right _ (List.mem_singleton_self _))
            rwa [List.length_drop, List.length_take, min_eq_left hu] at this
          have hmem₂ : (10 : Nat) ∈ (s.take u).drop (u - maxTok) := by
            have hq : ((s.take u).drop (u - maxTok))[j₀ - (u - maxTok)]? =
                some 10 := by
              rw [List.getElem?_drop,
                show u - maxTok + (j₀ - (u - maxTok)) = j₀ from by omega,
                List.getElem?_take_of_lt hj₀u]
              exact hs₀
            exact mem_of_getElem?_some hq
          obtain ⟨j, hj1, hje, hju, hjd, hjnm, hjgap, heq⟩ :=
            RU_hit s u (u - maxTok) (maxTok - u) s.length hu (by omega) hphd hmem₂
          have hcombined : brReadUntil s 10 (s.length + 2) (midSt s u e 0) =
              Except.ok ((s.take u).drop (j + 1),
                midSt s j (u - maxTok) (maxTok - u)) :=
            hfill.trans heq
          have hdec : s.take u = s.take j ++ 10 :: (s.take u).drop (j + 1) :=
            take_decomp s j u hju hu hjd
          have hcnt : (s.take j).count 10 + 1 = (s.take u).count 10 := by
            conv_rhs => rw [hdec]
            rw [List.count_append, List.count_cons_self,
              List.count_eq_zero.mpr hjnm]
          have ihj := ih j (by omega) j (u - maxTok) (maxTok - u) rfl hj1
            (by omega) hje (fun h2 => by omega) (by omega) (by omega)
            (fun hep => Or.inr (by omega)) (Or.inr hjd) f' (by omega)
          simp only [brReadAll, hcombined]
          rw [ihj]
          conv_rhs => rw [hdec]
          rw [specSplit_append, specSplit_of_not_mem 10 _ hjnm,
            List.reverse_append]
          simp
        · have hulen : u < maxTok := by
            have hms : s.take u ∈ specSplit 10 (s.take u) := by
              rw [specSplit_of_not_mem 10 _ hp10]
              exact List.mem_singleton_self _
            have := hpline _ hms
            rwa [List.length_take, min_eq_left hu] at this
          have he₂ : u - maxTok = 0 := by omega
          rw [he₂] at hfill
          have hcombined : brReadUntil s 10 (s.length + 2) (midSt s u e 0) =
              Except.ok (s.take u, (⟨[], maxTok - u, 0, true⟩ : BRState)) :=
            hfill.trans (RU_bof s u (maxTok - u) s.length h1u hu hphd hp10)
          obtain ⟨f'', rfl⟩ : ∃ f'', f' = f'' + 1 := ⟨f' - 1, by omega⟩
          simp only [brReadAll, hcombined,
            show brReadUntil s 10 (s.length + 2)
                ((⟨[], maxTok - u, 0, true⟩ : BRState)) =
              Except.error BRErr.eof from
              RU_eof s (maxTok - u) (s.length + 1) (by omega)]
          rw [specSplit_of_not_mem 10 _ hp10]
          simp

/-- The window buffered by the first `fill` contains a delimiter whenever
the stream overflows the buffer and every line respects the `ErrTooLong`
bound: the last line is short, so the last delimiter lies inside the
buffered suffix. -/
theorem init_window_mem (s : List Nat) (hne : s ≠ []) (hhd : s.head? ≠ some 10)
    (hline : ∀ t ∈ specSplit 10 s, t.length < maxTok)
    (hbig : 0 < s.length - maxTok) :
    (10 : Nat) ∈ (s.take s.length).drop (s.length - maxTok) := by
  have hsm : (10 : Nat) ∈ s := by
    by_contra hnm
    have hms : s ∈ specSplit 10 s := by
      rw [specSplit_of_not_mem 10 _ hnm]
      exact List.mem_singleton_self _
    have := hline _ hms
    omega
  obtain ⟨j₀, hj₀1, hj₀l, hj₀d, hj₀gap⟩ := exists_last_delim s hne hhd hsm
  have hnm₀ : (10 : Nat) ∉ s.drop (j₀ + 1) := by
    intro hm
    obtain ⟨m, hm'⟩ := List.getElem?_of_mem hm
    rw [List.getElem?_drop] at hm'
    exact hj₀gap _ (by omega) hm'
  have hdec : s = s.take j₀ ++ 10 :: s.drop (j₀ + 1) := by
    obtain ⟨hlt, hv⟩ := List.getElem?_eq_some_iff.mp hj₀d
    conv_lhs => rw [← List.take_append_drop j₀ s]
    rw [List.drop_eq_getElem_cons hlt, hv]
  have hseg : s.drop (j₀ + 1) ∈ specSplit 10 s := by
    have hsp : specSplit 10 s = specSplit 10 (s.take j₀) ++ [s.drop (j₀ + 1)] := by
      conv_lhs => rw [hdec]
      rw [specSplit_append, specSplit_of_not_mem 10 _ hnm₀]
    rw [hsp]
    exact List.mem_append_right _ (List.mem_singleton_self _)
  have hseglen : s.length - (j₀ + 1) < maxTok := by
    have := hline _ hseg
    rwa [List.length_drop] at this
  have hq : ((s.take s.length).drop (s.length - maxTok))[j₀ - (s.length - maxTok)]? =
      some 10 := by
    rw [List.getElem?_drop,
      show s.length - maxTok + (j₀ - (s.length - maxTok)) = j₀ from by omega,
      List.getElem?_take_of_lt hj₀l]
    exact hj₀d
  exact mem_of_getElem?_some hq

/-- The first `ReadUntil` call performs the initial fill and then behaves
exactly like a call on the corresponding mid state. -/
theorem brReadAll_init_eq (s : List Nat) (hne : s ≠ []) (hhd : s.head? ≠ some 10)
    (hline : ∀ t ∈ specSplit 10 s, t.length < maxTok) (f : Nat) :
    brReadAll s 10 (f + 1) brInit =
      brReadAll s 10 (f + 1)
        (midSt s s.length (s.length - maxTok) (maxTok - s.length)) := by
  have hpos : 0 < s.length := List.length_pos.mpr hne
  have hphd : (s.take s.length).head? ≠ some 10 := by
    rw [head?_take_of_pos s s.length hpos]
    exact hhd
  have hpline : ∀ t ∈ specSplit 10 (s.take s.length), t.length < maxTok := by
    rw [List.take_length]
    exact hline
  have hful : 0 < s.length - maxTok →
      ((10 : Nat) ∈ (s.take s.length).drop (s.length - maxTok) ∨
        s.length - (s.length - maxTok) < maxTok) :=
    fun hbig => Or.inl (init_window_mem s hne hhd hline hbig)
  have hfirst : brReadUntil s 10 (s.length + 2) brInit =
      brReadUntil s 10 (s.length + 1)
        (midSt s s.length (s.length - maxTok) (maxTok - s.length)) := by
    show brReadUntil s 10 ((s.length + 1) + 1) brInit = _
    rw [brReadUntil]
    rw [if_pos (show brInit.init = false from rfl),
      show brFill s brInit =
        .ok (midSt s s.length (s.length - maxTok) (maxTok - s.length)) from
        brFill_init s hne]
  have hindep : brReadUntil s 10 (s.length + 1)
        (midSt s s.length (s.length - maxTok) (maxTok - s.length)) =
      brReadUntil s 10 (s.length + 2)
        (midSt s s.length (s.length - maxTok) (maxTok - s.length)) :=
    RU_indep s s.length (s.length - maxTok) (maxTok - s.length) hpos le_rfl
      (by omega) (fun h => by omega) hful hphd hpline s.length (s.length + 1)
      hpos (by omega)
  rw [brReadAll, brReadAll, hfirst, hindep]

/-- C4 (amended): for the delimiter `'\n'` (byte 10 — the trim of the
delimiter from tokens is hard-coded to `'\n'` in the source) and every
non-empty stream whose first byte is not the delimiter and in which every
line is shorter than the 64 KiB buffer (the `ErrTooLong` bound), repeatedly
calling `ReadUntil` until EOF yields a token sequence whose reversal equals
the original stream split by the delimiter. -/
theorem brTokens_reverse_split (s : List Nat) (h1 : s ≠ [])
    (h2 : s.head? ≠ some 10)
    (h3 : ∀ t ∈ specSplit 10 s, t.length < maxTok) :
    brTokens s 10 = ((specSplit 10 s).reverse, true) := by
  have hpos : 0 < s.length := List.length_pos.mpr h1
  unfold brTokens
  rw [show s.length + 2 = (s.length + 1) + 1 from rfl,
    brReadAll_init_eq s h1 h2 h3 (s.length + 1)]
  have hcnt : (s.take s.length).count 10 ≤ s.length := by
    rw [List.take_length]
    exact List.count_le_length 10 s
  have hmT : maxTok = 65536 := rfl
  have hmain := brReadAll_mid s h1 h2 h3 s.length s.length (s.length - maxTok)
    (maxTok - s.length) rfl hpos le_rfl (by omega) (fun h => by omega)
    (by omega) (by omega)
    (fun hbig => Or.inl (init_window_mem s h1 h2 h3 hbig))
    (Or.inl rfl) ((s.length + 1) + 1) (by omega)
  rw [List.take_length] at hmain
  exact hmain

theorem brTokens_reverse_split_witness :
    brTokens [97, 10, 98] 10 = ((specSplit 10 [97, 10, 98]).reverse, true) :=
  brTokens_reverse_split [97, 10, 98] (by decide) (by decide) (by decide)

end Cronmon
